import Mathlib

/-!
Verification of the SIMD small-prime sieve in `native/radix_simd.cpp`.

The C++ code classifies batches of unsigned 64-bit integers as prime or
composite.  It sieves 8-wide groups of candidates against a fixed bank of
sixteen small primes using a NEON Barrett reduction, and falls back to
scalar trial division for group survivors, out-of-range lanes, short
batches and trailing remainders.

The shallow embedding below models all machine integers as `Nat` with
explicit reduction modulo `2^32` / `2^64` at exactly the points where the
C++ arithmetic wraps (the NEON `vmulq_u32`/`vsubq_u32` lanes and the
`i * i` loop bound in `is_prime_scalar`).  The trial-division loop is
given explicit fuel; the fuel is provably irrelevant past `n` iterations.
-/

namespace RadixSimd

/-- `2^64`, the modulus of C++ `uint64_t` arithmetic. -/
def M64 : Nat := 18446744073709551616

/-- `2^32`, the modulus of C++ `uint32_t` arithmetic. -/
def B32 : Nat := 4294967296

/-- `UINT32_MAX`, the range-guard bound used by the vectorized path. -/
def U32MAX : Nat := 4294967295

/-- Truncation to 32 bits, the effect of a `uint32_t` cast / NEON lane. -/
def w32 (a : Nat) : Nat := a % B32

/-- Wrapping 32-bit subtraction, the effect of `vsubq_u32`. -/
def wsub32 (a b : Nat) : Nat := (w32 a + B32 - w32 b) % B32

/-- `kSmallPrimes` from the source. -/
def kSmallPrimes : List Nat := [2, 3, 5, 7, 11, 13, 17, 19]

/-- `kExtendedPrimes` from the source. -/
def kExtendedPrimes : List Nat := [23, 29, 31, 37, 41, 43, 47, 53]

/-- The full prime bank, sieved in order: `kSmallPrimes` then `kExtendedPrimes`. -/
def primeBank : List Nat := kSmallPrimes ++ kExtendedPrimes

/-- `make_barrett_magic`: `(uint32_t)(((1ULL << 32) + p - 1) / p)`. -/
def make_barrett_magic (p : Nat) : Nat := w32 ((B32 + p - 1) / p)

/-- One lane of `barrett_modq_u32_dual`: widening multiply `vmull_u32`,
high-half extraction `vshrn_n_u64 _ 32`, wrapping `q*p` multiply and
subtraction, then one conditional subtraction of `p` when the raw
remainder is `≥ p` (the `vcgeq_u32`/`vandq_u32`/`vsubq_u32` sequence). -/
def barrett_modq_u32 (n p : Nat) : Nat :=
  let magic := make_barrett_magic p
  let q := w32 (n * magic / B32)
  let qp := w32 (q * p)
  let r := wsub32 n qp
  if p ≤ r then wsub32 r p else r

/-- The trial-division loop of `is_prime_scalar`:
`for (uint64_t i = 3; i * i <= n; i += 2)`, with both `i * i` and the
increment wrapping modulo `2^64` as in C++.  `fuel` bounds the number of
iterations; every call made by the engine supplies enough fuel. -/
def trialLoop (n : Nat) : Nat → Nat → Bool
  | _, 0 => true
  | i, fuel + 1 =>
    if i * i % M64 ≤ n then
      if n % i = 0 then false
      else trialLoop n ((i + 2) % M64) fuel
    else true

/-- `is_prime_scalar` with explicit loop fuel. -/
def is_prime_scalar_fuel (n fuel : Nat) : Bool :=
  if n < 2 then false
  else if n % 2 = 0 then n == 2
  else trialLoop n 3 fuel

/-- `is_prime_scalar` from the source; fuel `n` suffices because the loop
index is odd and the loop always stops at `i = n` at the latest. -/
def is_prime_scalar (n : Nat) : Bool := is_prime_scalar_fuel n n

/-- `process_scalar`: scalar trial division over a whole list. -/
def process_scalar (l : List Nat) : List Bool := l.map is_prime_scalar

/-- One `sieve(prime)` step on a single 32-bit lane holding `n`:
`divisible = (barrett remainder == 0) && !(n == p)`, OR-ed into the lane's
composite mask. -/
def sieveStep (n : Nat) (mask : Bool) (p : Nat) : Bool :=
  mask || (decide (barrett_modq_u32 n p = 0) && ! decide (n = p))

/-- The lane's composite flag after sieving against the full bank,
accumulated by logical OR exactly as `composite_mask1/2` in the source. -/
def compositeMask (n : Nat) : Bool := primeBank.foldl (sieveStep n) false

/-- One 8-candidate group of `process_batch_simd_real_8lane`: the range
guard falls back to `process_scalar` if any lane exceeds `UINT32_MAX`;
otherwise each candidate is truncated into a 32-bit lane, sieved, and a
set composite flag yields verdict `false` while a clear flag defers to
`is_prime_scalar` on the original 64-bit value. -/
def processGroup (g : List Nat) : List Bool :=
  if g.any (fun x => decide (U32MAX < x)) then process_scalar g
  else g.map (fun n => if compositeMask (w32 n) then false else is_prime_scalar n)

/-- `process_batch_simd_real_8lane`: full 8-wide groups are vector-sieved
(`i + 8 <= count`), the trailing `count % 8` candidates go to
`process_scalar`. -/
def process_batch : List Nat → List Bool
  | x1 :: x2 :: x3 :: x4 :: x5 :: x6 :: x7 :: x8 :: rest =>
    processGroup [x1, x2, x3, x4, x5, x6, x7, x8] ++ process_batch rest
  | l => process_scalar l

/-- `SIMDBatchProcessor::process`: batches of at least 16 candidates take
the vectorized path, smaller batches are handled purely scalar. -/
def process (numbers : List Nat) : List Bool :=
  if 16 ≤ numbers.length then process_batch numbers else process_scalar numbers

/-- Modelled from the spec (section 4.2, "Scalar trial division"):
the reference algorithm the scalar oracle is specified to implement —
`n < 2` not prime; `n == 2` prime; other even `n` composite; otherwise
composite iff some odd divisor from 3 up to `floor(sqrt n)` inclusive
divides `n` evenly. -/
def spec_trial_division (n : Nat) : Bool :=
  if n < 2 then false
  else if n = 2 then true
  else if n % 2 = 0 then false
  else decide (∀ d : Nat, d ≤ Nat.sqrt n → 3 ≤ d → d % 2 = 1 → n % d ≠ 0)

/-- A concrete odd square root of `2^64 - 7` modulo `2^64`, used to show
the wrapped loop bound `i * i % 2^64` eventually exceeds any candidate
below `2^64 - 7`. -/
def k0 : Nat := 1852311383259529397

/-! ### Barrett reduction: quotient estimate and remainder analysis -/

/-- The magic constant never truncates for primes in range. -/
lemma make_barrett_magic_eq (p : Nat) (hp : 2 ≤ p) (hp2 : p ≤ 65536) :
    make_barrett_magic p = (B32 + p - 1) / p := by
  have hB32 : B32 = 4294967296 := rfl
  have h1 : (B32 + p - 1) / p ≤ (B32 + p - 1) / 2 :=
    Nat.div_le_div_left hp (by omega)
  simp only [make_barrett_magic, w32]
  exact Nat.mod_eq_of_lt (by omega)

/-- `p * magic = 2^32 + e` with `0 ≤ e < p`. -/
lemma magic_mul_bounds (p : Nat) (hp : 2 ≤ p) :
    B32 ≤ p * ((B32 + p - 1) / p) ∧ p * ((B32 + p - 1) / p) ≤ B32 + p - 1 := by
  have hB32 : B32 = 4294967296 := rfl
  have h := Nat.div_add_mod (B32 + p - 1) p
  have h2 : (B32 + p - 1) % p < p := Nat.mod_lt _ (by omega)
  omega

/-- The estimated quotient `q = (n * magic) >> 32` is `n / p` or `n / p + 1`;
it is exactly `n / p` whenever `p ∣ n`, and also whenever
`n * (p * magic - 2^32) < 2^32`. -/
lemma barrett_quot (p n : Nat) (hp : 2 ≤ p) (hp2 : p ≤ 65536) (hn : n < B32) :
    n / p ≤ n * ((B32 + p - 1) / p) / B32 ∧
    n * ((B32 + p - 1) / p) / B32 ≤ n / p + 1 ∧
    (n % p = 0 → n * ((B32 + p - 1) / p) / B32 = n / p) ∧
    (n * (p * ((B32 + p - 1) / p) - B32) < B32 →
      n * ((B32 + p - 1) / p) / B32 = n / p) := by
  have hB32 : B32 = 4294967296 := rfl
  obtain ⟨hlo, hhi⟩ := magic_mul_bounds p hp
  obtain ⟨e, hpm, hep⟩ :
      ∃ e, p * ((B32 + p - 1) / p) = B32 + e ∧ e < p :=
    ⟨p * ((B32 + p - 1) / p) - B32, by omega, by omega⟩
  have hB : 0 < B32 := by omega
  have hn0 : n / p * p ≤ n := Nat.div_mul_le_self n p
  have hmod : n / p * p + n % p = n := Nat.div_add_mod' n p
  have hR : n % p < p := Nat.mod_lt _ (by omega)
  -- lower bound
  have hlow : n / p ≤ n * ((B32 + p - 1) / p) / B32 := by
    rw [Nat.le_div_iff_mul_le hB]
    calc n / p * B32 ≤ n / p * (p * ((B32 + p - 1) / p)) :=
          Nat.mul_le_mul_left _ hlo
      _ = n / p * p * ((B32 + p - 1) / p) := by ring
      _ ≤ n * ((B32 + p - 1) / p) := Nat.mul_le_mul_right _ hn0
  -- the key product identity: p * (n * magic) = n * 2^32 + n * e
  have hkey : p * (n * ((B32 + p - 1) / p)) = n * B32 + n * e := by
    calc p * (n * ((B32 + p - 1) / p)) = n * (p * ((B32 + p - 1) / p)) := by ring
      _ = n * (B32 + e) := by rw [hpm]
      _ = n * B32 + n * e := by ring
  have hsplit : n * B32 = n / p * p * B32 + n % p * B32 := by
    calc n * B32 = (n / p * p + n % p) * B32 := by rw [hmod]
      _ = n / p * p * B32 + n % p * B32 := by ring
  have hne : n * e < B32 * p :=
    mul_lt_mul'' hn hep (Nat.zero_le _) (Nat.zero_le _)
  have hRB : n % p * B32 < p * B32 :=
    mul_lt_mul_of_pos_right hR (by omega)
  -- upper bound
  have hup : n * ((B32 + p - 1) / p) / B32 ≤ n / p + 1 := by
    have hlt : p * (n * ((B32 + p - 1) / p)) < p * ((n / p + 2) * B32) := by
      rw [hkey, hsplit]
      have hgoal : n / p * p * B32 + n % p * B32 + n * e <
          p * ((n / p + 2) * B32) := by
        have hexp : p * ((n / p + 2) * B32) =
            n / p * p * B32 + (p * B32 + p * B32) := by ring
        rw [hexp]
        have hcomm : B32 * p = p * B32 := by ring
        rw [hcomm] at hne
        omega
      omega
    have hlt2 : n * ((B32 + p - 1) / p) < (n / p + 2) * B32 :=
      Nat.lt_of_mul_lt_mul_left hlt
    have := (Nat.div_lt_iff_lt_mul hB).mpr hlt2
    omega
  refine ⟨hlow, hup, ?_, ?_⟩
  · intro hR0
    have hlt : p * (n * ((B32 + p - 1) / p)) < p * ((n / p + 1) * B32) := by
      rw [hkey, hsplit, hR0]
      have hexp : p * ((n / p + 1) * B32) = n / p * p * B32 + p * B32 := by ring
      rw [hexp]
      have hcomm : B32 * p = p * B32 := by ring
      rw [hcomm] at hne
      omega
    have hlt2 : n * ((B32 + p - 1) / p) < (n / p + 1) * B32 :=
      Nat.lt_of_mul_lt_mul_left hlt
    have := (Nat.div_lt_iff_lt_mul hB).mpr hlt2
    omega
  · intro hcond
    have hcond2 : n * e < B32 := by
      have : n * (p * ((B32 + p - 1) / p) - B32) = n * e := by
        have hdiff : p * ((B32 + p - 1) / p) - B32 = e := by omega
        rw [hdiff]
      omega
    have hlt : p * (n * ((B32 + p - 1) / p)) < p * ((n / p + 1) * B32) := by
      rw [hkey, hsplit]
      have hexp : p * ((n / p + 1) * B32) = n / p * p * B32 + p * B32 := by ring
      rw [hexp]
      have hstep : (n % p + 1) * B32 ≤ p * B32 := Nat.mul_le_mul_right _ (by omega)
      have hexp2 : (n % p + 1) * B32 = n % p * B32 + B32 := by ring
      omega
    have hlt2 : n * ((B32 + p - 1) / p) < (n / p + 1) * B32 :=
      Nat.lt_of_mul_lt_mul_left hlt
    have := (Nat.div_lt_iff_lt_mul hB).mpr hlt2
    omega

/-- When the quotient estimate is exact, the corrected remainder is `n mod p`. -/
lemma barrett_of_q_exact (p n : Nat) (hp : 2 ≤ p) (hp2 : p ≤ 65536) (hn : n < B32)
    (hq : n * ((B32 + p - 1) / p) / B32 = n / p) :
    barrett_modq_u32 n p = n % p := by
  have hB32 : B32 = 4294967296 := rfl
  have hmagic := make_barrett_magic_eq p hp hp2
  have hR : n % p < p := Nat.mod_lt _ (by omega)
  have hn0 : n / p * p ≤ n := Nat.div_mul_le_self n p
  have hmod : n / p * p + n % p = n := Nat.div_add_mod' n p
  have hdm : n / p % B32 = n / p :=
    Nat.mod_eq_of_lt (lt_of_le_of_lt (Nat.div_le_self n p) hn)
  have hqpm : n / p * p % B32 = n / p * p := Nat.mod_eq_of_lt (by omega)
  simp only [barrett_modq_u32, hmagic, hq, w32, wsub32, hdm, hqpm]
  simp only [B32] at *
  split <;> omega

/-- When the quotient estimate overshoots by one, the corrected remainder is
the wrapped value `2^32 + n mod p - 2p`. -/
lemma barrett_of_q_over (p n : Nat) (hp : 2 ≤ p) (hp2 : p ≤ 65536) (hn : n < B32)
    (hq : n * ((B32 + p - 1) / p) / B32 = n / p + 1) :
    barrett_modq_u32 n p = B32 + n % p - 2 * p := by
  have hB32 : B32 = 4294967296 := rfl
  have hmagic := make_barrett_magic_eq p hp hp2
  have hR : n % p < p := Nat.mod_lt _ (by omega)
  have hn0 : n / p * p ≤ n := Nat.div_mul_le_self n p
  have hmod : n / p * p + n % p = n := Nat.div_add_mod' n p
  have hdm : (n / p + 1) % B32 = n / p + 1 := by
    have h1 : n / p ≤ n / 2 := Nat.div_le_div_left hp (by omega)
    have h2 : n / 2 < B32 / 2 := by omega
    exact Nat.mod_eq_of_lt (by omega)
  have hqp : (n / p + 1) * p = n - n % p + p := by
    have hexp : (n / p + 1) * p = n / p * p + p := by ring
    omega
  simp only [barrett_modq_u32, hmagic, hq, w32, wsub32, hdm]
  simp only [B32] at *
  split <;> omega

/-- The sieve's divisibility test is exact on every lane: the corrected
remainder is zero iff `p` divides `n`, even when the estimate overshoots. -/
lemma barrett_zero_iff (p n : Nat) (hp : 2 ≤ p) (hp2 : p ≤ 65536) (hn : n < B32) :
    (barrett_modq_u32 n p = 0 ↔ n % p = 0) := by
  have hB32 : B32 = 4294967296 := rfl
  obtain ⟨hlo, hup, hzero, -⟩ := barrett_quot p n hp hp2 hn
  have hR : n % p < p := Nat.mod_lt _ (by omega)
  rcases Nat.eq_or_lt_of_le hlo with hq | hq
  · rw [barrett_of_q_exact p n hp hp2 hn hq.symm]
  · have hq1 : n * ((B32 + p - 1) / p) / B32 = n / p + 1 := by omega
    rw [barrett_of_q_over p n hp hp2 hn hq1]
    constructor
    · intro h
      omega
    · intro h
      have := hzero h
      omega

/-- Both guarantees of the amended reducer contract: whenever the error
term `n * e` stays below `2^32` the reduction is exact and in range. -/
lemma barrett_exact_of_small (p n : Nat) (hp : 2 ≤ p) (hp2 : p ≤ 65536)
    (hn : n < B32) (hc : n * (p * make_barrett_magic p - B32) < B32) :
    barrett_modq_u32 n p = n % p ∧ barrett_modq_u32 n p < p := by
  have hmagic := make_barrett_magic_eq p hp hp2
  rw [hmagic] at hc
  obtain ⟨-, -, -, hexact⟩ := barrett_quot p n hp hp2 hn
  have hq := hexact hc
  have h := barrett_of_q_exact p n hp hp2 hn hq
  exact ⟨h, h ▸ Nat.mod_lt _ (by omega)⟩

lemma primeBank_facts : ∀ p ∈ primeBank, 2 ≤ p ∧ p ≤ 65536 ∧ Nat.Prime p := by
  decide

/-! ### The scalar trial-division loop -/

/-- Unfolding equation for one loop iteration. -/
lemma trialLoop_succ (n i fuel : Nat) :
    trialLoop n i (fuel + 1) =
      if i * i % M64 ≤ n then
        if n % i = 0 then false else trialLoop n ((i + 2) % M64) fuel
      else true := rfl

/-- If some index `i + 2d` (reachable from `i` in steps of 2, below the
wrap bound) has a wrapped square exceeding `n`, and no index on the way
divides `n`, the loop exits with `true`. -/
lemma trialLoop_exit_true (n : Nat) :
    ∀ d i fuel, 0 < i → i + 2 * d < M64 →
      n < (i + 2 * d) * (i + 2 * d) % M64 →
      (∀ t, t < d → ¬ (i + 2 * t) ∣ n) →
      d < fuel →
      trialLoop n i fuel = true := by
  intro d
  induction d with
  | zero =>
    intro i fuel hi hiM hsq hdvd hfuel
    obtain ⟨f, rfl⟩ : ∃ f, fuel = f + 1 := ⟨fuel - 1, by omega⟩
    rw [trialLoop_succ]
    simp only [Nat.mul_zero, Nat.add_zero] at hsq
    rw [if_neg (by omega)]
  | succ d ih =>
    intro i fuel hi hiM hsq hdvd hfuel
    obtain ⟨f, rfl⟩ : ∃ f, fuel = f + 1 := ⟨fuel - 1, by omega⟩
    rw [trialLoop_succ]
    by_cases hcond : i * i % M64 ≤ n
    · rw [if_pos hcond]
      have hind : ¬ i ∣ n := by
        have h0 := hdvd 0 (by omega)
        simpa using h0
      have hmodne : n % i ≠ 0 := fun h => hind (Nat.dvd_of_mod_eq_zero h)
      rw [if_neg hmodne]
      have hstep : (i + 2) % M64 = i + 2 := Nat.mod_eq_of_lt (by omega)
      rw [hstep]
      have harith : i + 2 * (d + 1) = i + 2 + 2 * d := by ring
      rw [harith] at hsq hiM
      refine ih (i + 2) f (by omega) hiM hsq ?_ (by omega)
      intro t ht
      have h1 := hdvd (t + 1) (by omega)
      have harith2 : i + 2 * (t + 1) = i + 2 + 2 * t := by ring
      rw [harith2] at h1
      exact h1
    · rw [if_neg hcond]

/-- If index `i + 2d` divides `n`, all indices up to it keep the loop
condition alive and none of the earlier ones divides `n`, the loop exits
with `false`. -/
lemma trialLoop_exit_false (n : Nat) :
    ∀ d i fuel, 0 < i →
      (∀ t, t ≤ d → (i + 2 * t) * (i + 2 * t) % M64 ≤ n) →
      (∀ t, t < d → ¬ (i + 2 * t) ∣ n) →
      (i + 2 * d) ∣ n →
      i + 2 * d < M64 →
      d < fuel →
      trialLoop n i fuel = false := by
  intro d
  induction d with
  | zero =>
    intro i fuel hi hsq hdvd hdvd0 hiM hfuel
    obtain ⟨f, rfl⟩ : ∃ f, fuel = f + 1 := ⟨fuel - 1, by omega⟩
    rw [trialLoop_succ]
    have hc := hsq 0 (Nat.le_refl 0)
    simp only [Nat.mul_zero, Nat.add_zero] at hc hdvd0
    rw [if_pos hc, if_pos (Nat.mod_eq_zero_of_dvd hdvd0)]
  | succ d ih =>
    intro i fuel hi hsq hdvd hdvd0 hiM hfuel
    obtain ⟨f, rfl⟩ : ∃ f, fuel = f + 1 := ⟨fuel - 1, by omega⟩
    rw [trialLoop_succ]
    have hc := hsq 0 (Nat.zero_le _)
    simp only [Nat.mul_zero, Nat.add_zero] at hc
    rw [if_pos hc]
    have hind : ¬ i ∣ n := by
      have h0 := hdvd 0 (by omega)
      simpa using h0
    have hmodne : n % i ≠ 0 := fun h => hind (Nat.dvd_of_mod_eq_zero h)
    rw [if_neg hmodne]
    have hstep : (i + 2) % M64 = i + 2 := Nat.mod_eq_of_lt (by omega)
    rw [hstep]
    have harith : i + 2 * (d + 1) = i + 2 + 2 * d := by ring
    rw [harith] at hdvd0 hiM
    refine ih (i + 2) f (by omega) ?_ ?_ hdvd0 hiM (by omega)
    · intro t ht
      have h1 := hsq (t + 1) (by omega)
      have harith2 : i + 2 * (t + 1) = i + 2 + 2 * t := by ring
      rw [harith2] at h1
      exact h1
    · intro t ht
      have h1 := hdvd (t + 1) (by omega)
      have harith2 : i + 2 * (t + 1) = i + 2 + 2 * t := by ring
      rw [harith2] at h1
      exact h1

/-- Numeric facts about the hard-coded square root of `-7` mod `2^64`. -/
lemma k0_facts :
    k0 % 2 = 1 ∧ 3 ≤ k0 ∧ k0 ≤ 4611686018427387904 ∧
      k0 * k0 % M64 = M64 - 7 := by
  refine ⟨by decide, by decide, by decide, ?_⟩
  decide

/-- There is no prime among the eight largest `uint64` values: each of
them has a small explicit factor. -/
lemma no_prime_top (n : Nat) (hn : n < M64) (htop : M64 - 8 < n) :
    ¬ Nat.Prime n := by
  intro hp
  have hM : M64 = 18446744073709551616 := rfl
  have hcases : n = 18446744073709551609 ∨ n = 18446744073709551610 ∨
      n = 18446744073709551611 ∨ n = 18446744073709551612 ∨
      n = 18446744073709551613 ∨ n = 18446744073709551614 ∨
      n = 18446744073709551615 := by omega
  have hdvd : ∀ d : Nat, d ∣ n → d ≠ 1 → d ≠ n → False := by
    intro d hd h1 hself
    rcases hp.eq_one_or_self_of_dvd d hd with h | h
    · exact h1 h
    · exact hself h
  rcases hcases with rfl | rfl | rfl | rfl | rfl | rfl | rfl
  · exact hdvd 3 (Nat.dvd_of_mod_eq_zero (by decide)) (by decide) (by decide)
  · exact hdvd 2 (Nat.dvd_of_mod_eq_zero (by decide)) (by decide) (by decide)
  · exact hdvd 11 (Nat.dvd_of_mod_eq_zero (by decide)) (by decide) (by decide)
  · exact hdvd 2 (Nat.dvd_of_mod_eq_zero (by decide)) (by decide) (by decide)
  · exact hdvd 13 (Nat.dvd_of_mod_eq_zero (by decide)) (by decide) (by decide)
  · exact hdvd 2 (Nat.dvd_of_mod_eq_zero (by decide)) (by decide) (by decide)
  · exact hdvd 3 (Nat.dvd_of_mod_eq_zero (by decide)) (by decide) (by decide)

/-- For odd `n` below `2^62` there is an odd index at most `n` whose
(unwrapped) square exceeds `n`: the first odd number above `sqrt n`. -/
lemma exists_exit_index_small (n : Nat) (h3 : 3 ≤ n)
    (hn : n < 4611686018427387904) :
    ∃ k, k % 2 = 1 ∧ 3 ≤ k ∧ k ≤ n ∧ n < k * k % M64 := by
  have hM : M64 = 18446744073709551616 := rfl
  have hs1 : 0 < Nat.sqrt n := Nat.sqrt_pos.mpr (by omega)
  have hsle : Nat.sqrt n * Nat.sqrt n ≤ n := Nat.sqrt_le n
  have hslt : n < (Nat.sqrt n + 1) * (Nat.sqrt n + 1) := Nat.lt_succ_sqrt n
  have hs2n : Nat.sqrt n + 2 ≤ n := by
    rcases le_or_lt (Nat.sqrt n) 1 with hs | hs
    · omega
    · have h2s : 2 * Nat.sqrt n ≤ Nat.sqrt n * Nat.sqrt n :=
        Nat.mul_le_mul_right _ hs
      omega
  have hs31 : Nat.sqrt n < 2147483648 := by
    by_contra hcon
    push_neg at hcon
    have : 2147483648 * 2147483648 ≤ Nat.sqrt n * Nat.sqrt n :=
      Nat.mul_le_mul hcon hcon
    omega
  refine ⟨if Nat.sqrt n % 2 = 0 then Nat.sqrt n + 1 else Nat.sqrt n + 2,
    ?_, ?_, ?_, ?_⟩
  · split <;> omega
  · split <;> omega
  · split <;> omega
  · have hk1 : Nat.sqrt n + 1 ≤
        (if Nat.sqrt n % 2 = 0 then Nat.sqrt n + 1 else Nat.sqrt n + 2) := by
      split <;> omega
    have hk2 : (if Nat.sqrt n % 2 = 0 then Nat.sqrt n + 1 else Nat.sqrt n + 2)
        ≤ 2147483649 := by split <;> omega
    set k := if Nat.sqrt n % 2 = 0 then Nat.sqrt n + 1 else Nat.sqrt n + 2
      with hk
    have hkk : k * k < M64 := by
      have := Nat.mul_le_mul hk2 hk2
      omega
    have hmono : (Nat.sqrt n + 1) * (Nat.sqrt n + 1) ≤ k * k :=
      Nat.mul_le_mul hk1 hk1
    rw [Nat.mod_eq_of_lt hkk]
    omega

/-- For every odd `n` with `3 ≤ n < 2^64` and enough fuel, the loop
computes primality of `n`. -/
lemma trialLoop_eval (n : Nat) (hodd : n % 2 = 1) (h3 : 3 ≤ n)
    (hn : n < M64) :
    ∀ fuel, n ≤ fuel → trialLoop n 3 fuel = decide (Nat.Prime n) := by
  have hM : M64 = 18446744073709551616 := rfl
  intro fuel hfuel
  by_cases hp : Nat.Prime n
  · rw [decide_eq_true hp]
    obtain ⟨k, hk1, hk3, hkn, hksq⟩ :
        ∃ k, k % 2 = 1 ∧ 3 ≤ k ∧ k ≤ n ∧ n < k * k % M64 := by
      rcases Nat.lt_or_ge n 4611686018427387904 with hsmall | hbig
      · exact exists_exit_index_small n h3 hsmall
      · obtain ⟨h1, h2, h3', h4⟩ := k0_facts
        have hn7 : n < M64 - 7 := by
          by_contra hcon
          push_neg at hcon
          exact no_prime_top n hn (by omega) hp
        exact ⟨k0, h1, h2, by omega, by omega⟩
    obtain ⟨d, rfl⟩ : ∃ d, k = 3 + 2 * d := ⟨(k - 3) / 2, by omega⟩
    refine trialLoop_exit_true n d 3 fuel (by omega) (by omega) hksq ?_
      (by omega)
    intro t ht hdvd
    rcases hp.eq_one_or_self_of_dvd _ hdvd with h | h
    · omega
    · omega
  · rw [decide_eq_false hp]
    have hn1 : n ≠ 1 := by omega
    have hqdvd := Nat.minFac_dvd n
    have hqp : Nat.Prime (Nat.minFac n) := Nat.minFac_prime hn1
    have hq2 : 2 ≤ Nat.minFac n := hqp.two_le
    have hqodd : Nat.minFac n % 2 = 1 := by
      by_contra h
      have h2 : (2 : Nat) ∣ Nat.minFac n := Nat.dvd_of_mod_eq_zero (by omega)
      have h2n : (2 : Nat) ∣ n := h2.trans hqdvd
      have := Nat.mod_eq_zero_of_dvd h2n
      omega
    have hsq : Nat.minFac n * Nat.minFac n ≤ n := by
      have h := Nat.minFac_sq_le_self (by omega) hp
      calc Nat.minFac n * Nat.minFac n = Nat.minFac n ^ 2 := by ring
        _ ≤ n := h
    have hqn : Nat.minFac n ≤ n := Nat.minFac_le (by omega)
    obtain ⟨d, hd⟩ : ∃ d, Nat.minFac n = 3 + 2 * d :=
      ⟨(Nat.minFac n - 3) / 2, by omega⟩
    refine trialLoop_exit_false n d 3 fuel (by omega) ?_ ?_ ?_ (by omega)
      (by omega)
    · intro t ht
      have hle : 3 + 2 * t ≤ 3 + 2 * d := by omega
      have hmul : (3 + 2 * t) * (3 + 2 * t) ≤ (3 + 2 * d) * (3 + 2 * d) :=
        Nat.mul_le_mul hle hle
      rw [← hd] at hmul
      have hlt : (3 + 2 * t) * (3 + 2 * t) ≤ n := le_trans hmul hsq
      rw [Nat.mod_eq_of_lt (by omega)]
      exact hlt
    · intro t ht hdvd
      have := Nat.minFac_le_of_dvd (by omega) hdvd
      omega
    · rw [← hd]; exact hqdvd

/-- `is_prime_scalar` decides mathematical primality on all of `uint64`,
for any sufficient fuel. -/
lemma is_prime_scalar_fuel_correct (n fuel : Nat) (hn : n < M64)
    (hfuel : n ≤ fuel) :
    is_prime_scalar_fuel n fuel = decide (Nat.Prime n) := by
  unfold is_prime_scalar_fuel
  by_cases h2 : n < 2
  · rw [if_pos h2]
    have : n = 0 ∨ n = 1 := by omega
    rcases this with rfl | rfl <;> decide
  · rw [if_neg h2]
    by_cases heven : n % 2 = 0
    · rw [if_pos heven]
      by_cases hn2 : n = 2
      · subst hn2; decide
      · have hne : (n == 2) = false := by simp [hn2]
        rw [hne]
        have hnp : ¬ Nat.Prime n := by
          intro hp
          have hdvd : (2 : Nat) ∣ n := Nat.dvd_of_mod_eq_zero heven
          rcases hp.eq_one_or_self_of_dvd 2 hdvd with h | h <;> omega
        simp [hnp]
    · rw [if_neg heven]
      exact trialLoop_eval n (by omega) (by omega) hn fuel hfuel

/-- `is_prime_scalar` decides mathematical primality on all of `uint64`. -/
lemma is_prime_scalar_correct (n : Nat) (hn : n < M64) :
    is_prime_scalar n = decide (Nat.Prime n) :=
  is_prime_scalar_fuel_correct n n hn (Nat.le_refl n)

/-- The spec's own trial-division description also decides primality. -/
lemma spec_trial_division_correct (n : Nat) :
    spec_trial_division n = decide (Nat.Prime n) := by
  unfold spec_trial_division
  by_cases h2 : n < 2
  · rw [if_pos h2]
    have : n = 0 ∨ n = 1 := by omega
    rcases this with rfl | rfl <;> decide
  · rw [if_neg h2]
    by_cases hn2 : n = 2
    · subst hn2; decide
    · rw [if_neg hn2]
      by_cases heven : n % 2 = 0
      · rw [if_pos heven]
        have hnp : ¬ Nat.Prime n := by
          intro hp
          have hdvd : (2 : Nat) ∣ n := Nat.dvd_of_mod_eq_zero heven
          rcases hp.eq_one_or_self_of_dvd 2 hdvd with h | h <;> omega
        simp [hnp]
      · rw [if_neg heven]
        refine decide_eq_decide.mpr ?_
        constructor
        · intro h
          by_contra hp
          have hn1 : n ≠ 1 := by omega
          have hqdvd := Nat.minFac_dvd n
          have hqp : Nat.Prime (Nat.minFac n) := Nat.minFac_prime hn1
          have hq2 : 2 ≤ Nat.minFac n := hqp.two_le
          have hqodd : Nat.minFac n % 2 = 1 := by
            by_contra hcon
            have hdvd2 : (2 : Nat) ∣ Nat.minFac n :=
              Nat.dvd_of_mod_eq_zero (by omega)
            have h2n : (2 : Nat) ∣ n := hdvd2.trans hqdvd
            have := Nat.mod_eq_zero_of_dvd h2n
            omega
          have hsq : Nat.minFac n * Nat.minFac n ≤ n := by
            have hs := Nat.minFac_sq_le_self (by omega) hp
            calc Nat.minFac n * Nat.minFac n = Nat.minFac n ^ 2 := by ring
              _ ≤ n := hs
          have hroot : Nat.minFac n ≤ Nat.sqrt n := Nat.le_sqrt.mpr hsq
          exact h (Nat.minFac n) hroot (by omega) hqodd
            (Nat.mod_eq_zero_of_dvd hqdvd)
        · intro hp d hdle hd3 hdodd hdmod
          have hdvd : d ∣ n := Nat.dvd_of_mod_eq_zero hdmod
          have hlt : Nat.sqrt n < n := Nat.sqrt_lt_self (by omega)
          rcases hp.eq_one_or_self_of_dvd d hdvd with h | h <;> omega

/-! ### The batch engine -/

/-- Folding the sieve step is an OR over the bank. -/
lemma foldl_sieveStep (n : Nat) : ∀ (ps : List Nat) (b : Bool),
    ps.foldl (sieveStep n) b =
      (b || ps.any (fun p => decide (barrett_modq_u32 n p = 0) &&
        ! decide (n = p))) := by
  intro ps
  induction ps with
  | nil => intro b; simp
  | cons p ps ih =>
    intro b
    simp only [List.foldl_cons, List.any_cons, ih, sieveStep, Bool.or_assoc]

/-- The composite flag of a 32-bit lane is set iff some bank prime
divides the lane value and the value is not that prime itself. -/
lemma compositeMask_iff (n : Nat) (hn : n < B32) :
    (compositeMask n = true ↔ ∃ p ∈ primeBank, p ∣ n ∧ n ≠ p) := by
  unfold compositeMask
  rw [foldl_sieveStep]
  simp only [Bool.false_or, List.any_eq_true]
  constructor
  · rintro ⟨p, hmem, hcond⟩
    simp only [Bool.and_eq_true, decide_eq_true_eq, Bool.not_eq_true',
      decide_eq_false_iff_not] at hcond
    obtain ⟨hz, hne⟩ := hcond
    obtain ⟨hp2, hpb, -⟩ := primeBank_facts p hmem
    have hmod := (barrett_zero_iff p n hp2 hpb hn).mp hz
    exact ⟨p, hmem, Nat.dvd_of_mod_eq_zero hmod, hne⟩
  · rintro ⟨p, hmem, hdvd, hne⟩
    refine ⟨p, hmem, ?_⟩
    obtain ⟨hp2, hpb, -⟩ := primeBank_facts p hmem
    have hz := (barrett_zero_iff p n hp2 hpb hn).mpr
      (Nat.mod_eq_zero_of_dvd hdvd)
    simp [hz, hne]

/-- A set composite flag certifies compositeness. -/
lemma compositeMask_not_prime (n : Nat) (hn : n < B32)
    (h : compositeMask n = true) : ¬ Nat.Prime n := by
  obtain ⟨p, hmem, hdvd, hne⟩ := (compositeMask_iff n hn).mp h
  obtain ⟨hp2, -, -⟩ := primeBank_facts p hmem
  intro hprime
  rcases hprime.eq_one_or_self_of_dvd p hdvd with h1 | h1
  · omega
  · exact hne h1.symm

/-- A group pass always agrees with pure scalar trial division. -/
lemma processGroup_eq (g : List Nat) : processGroup g = process_scalar g := by
  unfold processGroup
  split
  · rfl
  · next hguard =>
    have hall : ∀ x ∈ g, x ≤ U32MAX := by
      intro x hx
      by_contra hcon
      push_neg at hcon
      exact hguard (List.any_eq_true.mpr ⟨x, hx, by simpa using hcon⟩)
    unfold process_scalar
    refine List.map_congr_left ?_
    intro x hx
    have hxle := hall x hx
    have hxB : x < B32 := by
      have h1 : U32MAX = 4294967295 := rfl
      have h2 : B32 = 4294967296 := rfl
      omega
    have hw : w32 x = x := Nat.mod_eq_of_lt hxB
    rw [hw]
    by_cases hmask : compositeMask x = true
    · rw [if_pos hmask]
      have hnp := compositeMask_not_prime x hxB hmask
      have hM : x < M64 := by
        have h2 : B32 = 4294967296 := rfl
        have h3 : M64 = 18446744073709551616 := rfl
        omega
      rw [is_prime_scalar_correct x hM]
      simp [hnp]
    · rw [if_neg hmask]

/-- The whole vectorized path agrees with pure scalar trial division. -/
lemma process_batch_eq : ∀ (N : Nat) (l : List Nat), l.length ≤ N →
    process_batch l = process_scalar l := by
  intro N
  induction N with
  | zero =>
    intro l hl
    have : l = [] := List.eq_nil_of_length_eq_zero (by omega)
    subst this
    rfl
  | succ N ih =>
    intro l hl
    match l with
    | [] => rfl
    | [a] => rfl
    | [a, b] => rfl
    | [a, b, c] => rfl
    | [a, b, c, d] => rfl
    | [a, b, c, d, e] => rfl
    | [a, b, c, d, e, f] => rfl
    | [a, b, c, d, e, f, g] => rfl
    | x1 :: x2 :: x3 :: x4 :: x5 :: x6 :: x7 :: x8 :: rest =>
      have hstep : process_batch (x1 :: x2 :: x3 :: x4 :: x5 :: x6 :: x7 ::
          x8 :: rest) =
          processGroup [x1, x2, x3, x4, x5, x6, x7, x8] ++
            process_batch rest := rfl
      have hlen : rest.length ≤ N := by
        simp only [List.length_cons] at hl
        omega
      rw [hstep, processGroup_eq, ih rest hlen]
      simp [process_scalar]

/-- `process` always agrees with pure scalar trial division. -/
lemma process_eq (l : List Nat) : process l = process_scalar l := by
  unfold process
  split
  · exact process_batch_eq l.length l (Nat.le_refl _)
  · rfl

/-- Group decomposition of the vectorized path: a batch made of complete
8-wide groups followed by fewer than 8 trailing candidates processes the
groups vectorized and the trailing part scalar. -/
lemma process_batch_append : ∀ (N : Nat) (l r : List Nat), l.length ≤ N →
    l.length % 8 = 0 → r.length < 8 →
    process_batch (l ++ r) = process_batch l ++ process_scalar r := by
  intro N
  induction N with
  | zero =>
    intro l r hN h8 hr
    have : l = [] := List.eq_nil_of_length_eq_zero (by omega)
    subst this
    simp only [List.nil_append]
    rw [process_batch_eq r.length r (Nat.le_refl _)]
    rfl
  | succ N ih =>
    intro l r hN h8 hr
    match l with
    | [] =>
      simp only [List.nil_append]
      rw [process_batch_eq r.length r (Nat.le_refl _)]
      rfl
    | [a] => simp at h8
    | [a, b] => simp at h8
    | [a, b, c] => simp at h8
    | [a, b, c, d] => simp at h8
    | [a, b, c, d, e] => simp at h8
    | [a, b, c, d, e, f] => simp at h8
    | [a, b, c, d, e, f, g] => simp at h8
    | x1 :: x2 :: x3 :: x4 :: x5 :: x6 :: x7 :: x8 :: rest =>
      have hstep1 : process_batch ((x1 :: x2 :: x3 :: x4 :: x5 :: x6 :: x7 ::
          x8 :: rest) ++ r) =
          processGroup [x1, x2, x3, x4, x5, x6, x7, x8] ++
            process_batch (rest ++ r) := rfl
      have hstep2 : process_batch (x1 :: x2 :: x3 :: x4 :: x5 :: x6 :: x7 ::
          x8 :: rest) =
          processGroup [x1, x2, x3, x4, x5, x6, x7, x8] ++
            process_batch rest := rfl
      have hlen : rest.length ≤ N := by
        simp only [List.length_cons] at hN
        omega
      have h8r : rest.length % 8 = 0 := by
        simp only [List.length_cons] at h8
        omega
      rw [hstep1, ih rest r hlen h8r hr, hstep2, List.append_assoc]

/-- Every bank entry is classified prime by the scalar oracle. -/
lemma bank_scalar_true : ∀ p ∈ primeBank, is_prime_scalar p = true := by
  decide

/-- No bank entry raises its own composite flag. -/
lemma bank_mask_false : ∀ p ∈ primeBank, compositeMask p = false := by
  decide

example : barrett_modq_u32 9 3 = 0 := by decide
example : barrett_modq_u32 10 3 = 1 := by decide
example : barrett_modq_u32 2147483648 3 = 4294967292 := by decide
example : is_prime_scalar 97 = true := by decide
example : is_prime_scalar 91 = false := by decide
example : compositeMask 91 = true := by decide
example : compositeMask 53 = false := by decide
example : process [0, 1, 2, 3, 4] = [false, false, true, true, false] := by decide
example : k0 * k0 % M64 = M64 - 7 := by decide

/-! ### Claims -/

/-- C1: for every sequence of candidates, `process` returns a boolean
sequence equal, element by element and in the same order, to applying
scalar trial division to each candidate; in particular for every single
`n`, `process [n] = [is_prime_scalar n]`.  Proved for all `Nat`
sequences, which covers all `uint64` sequences and all batch lengths
(including 7, 8, 9, 15, 16, 17 and the vectorized lengths `≥ 16`). -/
theorem claim_C1 :
    (∀ l : List Nat, process l = l.map is_prime_scalar) ∧
    (∀ n : Nat, process [n] = [is_prime_scalar n]) :=
  ⟨fun l => process_eq l, fun n => process_eq [n]⟩

/-- C2 counterexample: for the bank prime `p = 3` and the 32-bit value
`n = 2^31`, the Barrett remainder is `4294967292`, which is neither
`n mod 3 = 2` nor below `p`: the claimed guarantee fails for some 32-bit
inputs because the quotient estimate overshoots by one. -/
theorem claim_C2_counterexample :
    3 ∈ primeBank ∧ 2147483648 < B32 ∧
    barrett_modq_u32 2147483648 3 = 4294967292 ∧
    2147483648 % 3 = 2 ∧
    ¬ (barrett_modq_u32 2147483648 3 < 3) :=
  ⟨by decide, by decide, by decide, by decide, by decide⟩

/-- C2 (amended): for every bank prime `p` and every 32-bit `n` for which
the quotient estimate provably cannot overshoot — those with
`n * (p * magic - 2^32) < 2^32`, i.e. small error term — the batch
Barrett reduction returns `r = n mod p` with `0 ≤ r < p`. -/
theorem claim_C2 : ∀ p n : Nat, p ∈ primeBank → n < B32 →
    n * (p * make_barrett_magic p - B32) < B32 →
    barrett_modq_u32 n p = n % p ∧ barrett_modq_u32 n p < p := by
  intro p n hmem hn hc
  obtain ⟨hp2, hpb, -⟩ := primeBank_facts p hmem
  exact barrett_exact_of_small p n hp2 hpb hn hc

/-- C2 witness: concrete instance of the amended claim at `p = 7`,
`n = 1000`. -/
theorem claim_C2_witness :
    (7 ∈ primeBank ∧ 1000 < B32 ∧
      1000 * (7 * make_barrett_magic 7 - B32) < B32) ∧
    (barrett_modq_u32 1000 7 = 1000 % 7 ∧ barrett_modq_u32 1000 7 < 7) :=
  ⟨⟨by decide, by decide, by decide⟩,
    claim_C2 7 1000 (by decide) (by decide) (by decide)⟩

/-- C3: for every bank prime `p` and every 32-bit `n`, the corrected
wrapping remainder is zero iff `p` divides `n` — the divisibility test
used by the sieve is exact even on overshoot inputs. -/
theorem claim_C3 : ∀ p n : Nat, p ∈ primeBank → n < B32 →
    (barrett_modq_u32 n p = 0 ↔ p ∣ n) := by
  intro p n hmem hn
  obtain ⟨hp2, hpb, -⟩ := primeBank_facts p hmem
  rw [barrett_zero_iff p n hp2 hpb hn]
  exact ⟨Nat.dvd_of_mod_eq_zero, Nat.mod_eq_zero_of_dvd⟩

/-- C3 witness: the divisibility test is exact at the overshoot input
`p = 7`, `n = 1431655770` (where the remainder itself is wrong). -/
theorem claim_C3_witness :
    (7 ∈ primeBank ∧ 1431655770 < B32) ∧
    (barrett_modq_u32 1431655770 7 = 0 ↔ 7 ∣ 1431655770) :=
  ⟨⟨by decide, by decide⟩, claim_C3 7 1431655770 (by decide) (by decide)⟩

/-- C4: within one group pass the composite mask is monotonic — a sieve
step on a lane whose flag is already set leaves it set — and after the
full bank the flag is set iff some bank prime divides the lane's
candidate and the candidate is not that prime itself. -/
theorem claim_C4 : ∀ n : Nat, n < B32 →
    (∀ (mask : Bool) (p : Nat), mask = true → sieveStep n mask p = true) ∧
    (compositeMask n = true ↔ ∃ p ∈ primeBank, p ∣ n ∧ n ≠ p) := by
  intro n hn
  constructor
  · intro mask p hm
    subst hm
    simp [sieveStep]
  · exact compositeMask_iff n hn

/-- C4 witness: concrete instance at lane value `6`. -/
theorem claim_C4_witness :
    6 < B32 ∧
    ((∀ (mask : Bool) (p : Nat), mask = true → sieveStep 6 mask p = true) ∧
      (compositeMask 6 = true ↔ ∃ p ∈ primeBank, p ∣ 6 ∧ 6 ≠ p)) :=
  ⟨by decide, claim_C4 6 (by decide)⟩

/-- C5: for every `uint64` value `n`, `is_prime_scalar` computes exactly
the spec's stated trial-division algorithm, and returns `true` iff `n`
is mathematically prime. -/
theorem claim_C5 : ∀ n : Nat, n < M64 →
    is_prime_scalar n = spec_trial_division n ∧
    (is_prime_scalar n = true ↔ Nat.Prime n) := by
  intro n hn
  have h1 := is_prime_scalar_correct n hn
  have h2 := spec_trial_division_correct n
  refine ⟨by rw [h1, h2], ?_⟩
  rw [h1]
  exact ⟨of_decide_eq_true, decide_eq_true⟩

/-- C5 witness: concrete instance at `n = 97`. -/
theorem claim_C5_witness :
    97 < M64 ∧
    (is_prime_scalar 97 = spec_trial_division 97 ∧
      (is_prime_scalar 97 = true ↔ Nat.Prime 97)) :=
  ⟨by decide, claim_C5 97 (by decide)⟩

/-- C6: the engine is total — for every `uint64` candidate, including 0,
1 and values near `2^64` where the loop bound `i * i` wraps, the
trial-division loop reaches its verdict within `n` iterations (extra
fuel never changes the result) and the verdict is a definite boolean. -/
theorem claim_C6 : ∀ n fuel : Nat, n < M64 → n ≤ fuel →
    is_prime_scalar_fuel n fuel = is_prime_scalar n ∧
    (is_prime_scalar n = true ∨ is_prime_scalar n = false) := by
  intro n fuel hn hfuel
  refine ⟨?_, ?_⟩
  · rw [is_prime_scalar_fuel_correct n fuel hn hfuel]
    exact (is_prime_scalar_correct n hn).symm
  · cases h : is_prime_scalar n
    · exact Or.inr rfl
    · exact Or.inl rfl

/-- C6 witness: concrete instance at `n = 91` with surplus fuel. -/
theorem claim_C6_witness :
    (91 < M64 ∧ 91 ≤ 1000) ∧
    (is_prime_scalar_fuel 91 1000 = is_prime_scalar 91 ∧
      (is_prime_scalar 91 = true ∨ is_prime_scalar 91 = false)) :=
  ⟨⟨by decide, by decide⟩, claim_C6 91 1000 (by decide) (by decide)⟩

/-- C7: a candidate equal to a prime-bank entry is classified prime at
its position in any input sequence (either path), and its composite
flag is never raised by self-divisibility in the vectorized pass. -/
theorem claim_C7 : ∀ (l : List Nat) (i p : Nat), l[i]? = some p →
    p ∈ primeBank →
    (process l)[i]? = some true ∧ compositeMask p = false := by
  intro l i p hget hmem
  refine ⟨?_, bank_mask_false p hmem⟩
  rw [process_eq]
  unfold process_scalar
  rw [List.getElem?_map, hget]
  simp [bank_scalar_true p hmem]

/-- C7 witness: bank entry 53 at position 15 of a 17-element batch that
takes the vectorized path. -/
theorem claim_C7_witness :
    (([2, 3, 5, 7, 11, 13, 17, 19, 23, 29, 31, 37, 41, 43, 47, 53, 54] :
        List Nat)[15]? = some 53 ∧ 53 ∈ primeBank) ∧
    ((process [2, 3, 5, 7, 11, 13, 17, 19, 23, 29, 31, 37, 41, 43, 47, 53,
        54])[15]? = some true ∧ compositeMask 53 = false) :=
  ⟨⟨by decide, by decide⟩,
    claim_C7 [2, 3, 5, 7, 11, 13, 17, 19, 23, 29, 31, 37, 41, 43, 47, 53, 54]
      15 53 (by decide) (by decide)⟩

/-- C8: an 8-candidate group containing a value above `UINT32_MAX` is
resolved entirely by scalar trial division (no error is raised — the
result is just the scalar map), and every candidate in the group, large
or small, receives the mathematically correct verdict. -/
theorem claim_C8 : ∀ g : List Nat, g.length = 8 →
    (∃ x ∈ g, U32MAX < x) →
    processGroup g = g.map is_prime_scalar ∧
    (∀ i n : Nat, g[i]? = some n → n < M64 →
      (processGroup g)[i]? = some (decide (Nat.Prime n))) := by
  intro g _hlen hex
  have hguard : g.any (fun x => decide (U32MAX < x)) = true := by
    rcases hex with ⟨x, hx, hlt⟩
    exact List.any_eq_true.mpr ⟨x, hx, by simpa using hlt⟩
  constructor
  · unfold processGroup
    rw [if_pos hguard]
    rfl
  · intro i n hget hn
    rw [processGroup_eq]
    unfold process_scalar
    rw [List.getElem?_map, hget]
    simp [is_prime_scalar_correct n hn]

/-- C8 witness: a group mixing `2^32` with small candidates. -/
theorem claim_C8_witness :
    (([4294967296, 0, 1, 2, 3, 4, 97, 91] : List Nat).length = 8 ∧
      (∃ x ∈ ([4294967296, 0, 1, 2, 3, 4, 97, 91] : List Nat),
        U32MAX < x)) ∧
    (processGroup [4294967296, 0, 1, 2, 3, 4, 97, 91] =
        ([4294967296, 0, 1, 2, 3, 4, 97, 91] : List Nat).map
          is_prime_scalar ∧
      (∀ i n : Nat,
        ([4294967296, 0, 1, 2, 3, 4, 97, 91] : List Nat)[i]? = some n →
        n < M64 →
        (processGroup [4294967296, 0, 1, 2, 3, 4, 97, 91])[i]? =
          some (decide (Nat.Prime n)))) :=
  ⟨⟨by decide, by decide⟩,
    claim_C8 [4294967296, 0, 1, 2, 3, 4, 97, 91] (by decide) (by decide)⟩

/-- C9: batches of fewer than 16 candidates are classified entirely by
scalar trial division, and in a vectorized batch the trailing
`count mod 8` candidates that do not fill a complete 8-wide group are
resolved entirely by scalar trial division. -/
theorem claim_C9 :
    (∀ l : List Nat, l.length < 16 → process l = l.map is_prime_scalar) ∧
    (∀ l r : List Nat, 16 ≤ l.length + r.length → l.length % 8 = 0 →
      r.length < 8 →
      process (l ++ r) = process_batch l ++ r.map is_prime_scalar) := by
  constructor
  · intro l hl
    unfold process
    rw [if_neg (by omega)]
    rfl
  · intro l r htot h8 hr
    unfold process
    rw [if_pos (by rw [List.length_append]; omega)]
    exact process_batch_append l.length l r (Nat.le_refl _) h8 hr

/-- C9 witness: a 1-element batch, and a 17-element batch whose trailing
candidate is scalar-resolved. -/
theorem claim_C9_witness :
    (process [(5 : Nat)] = [(5 : Nat)].map is_prime_scalar) ∧
    (process (([0, 1, 2, 3, 4, 5, 6, 7, 8, 9, 10, 11, 12, 13, 14, 15] :
        List Nat) ++ [97]) =
      process_batch [0, 1, 2, 3, 4, 5, 6, 7, 8, 9, 10, 11, 12, 13, 14, 15] ++
        ([97] : List Nat).map is_prime_scalar) :=
  ⟨claim_C9.1 [5] (by decide),
    claim_C9.2 [0, 1, 2, 3, 4, 5, 6, 7, 8, 9, 10, 11, 12, 13, 14, 15] [97]
      (by decide) (by decide) (by decide)⟩

/-- C10: for every input sequence (arbitrary length, including empty)
the output has the same length, `process [] = []`, and the verdict at
every index is the scalar verdict of the candidate at that index. -/
theorem claim_C10 : ∀ l : List Nat,
    (process l).length = l.length ∧ process ([] : List Nat) = [] ∧
    (∀ i : Nat, (process l)[i]? = (l[i]?).map is_prime_scalar) := by
  intro l
  refine ⟨?_, by decide, ?_⟩
  · rw [process_eq]
    unfold process_scalar
    simp
  · intro i
    rw [process_eq]
    unfold process_scalar
    simp

end RadixSimd
